import Mathlib

/-!
Verification development for the properties-comparator utility
(src/compareUtility.js).  The JavaScript source is shallowly embedded:
strings are lists of characters, JS plain objects used as string-to-string
maps are insertion-ordered association lists, and the external collaborators
(file system reads, the js-yaml decoder) are explicit function parameters.

Modelling assumptions, stated once here:
* JS whitespace (the regex class and `String.prototype.trim`) is modelled by
  the ASCII whitespace characters plus vertical tab, form feed and NBSP;
  the further Unicode space characters never occur in the inputs at issue.
* A JS plain object enumerates integer-like (array index) keys first in
  ascending numeric order and the remaining keys in insertion order; the
  model implements exactly this rule (`jsKeys`). Property lookup is
  own-property lookup (the prototype chain is not modelled).
-/

/-- Strings of the embedded program are lists of characters. -/
abbrev Str := List Char

/-- Coercion from Lean string literals to embedded strings. -/
def chars (s : String) : Str := s.data

/-- Model of the JS whitespace class (ASCII subset plus NBSP). -/
def isJsWhitespace (c : Char) : Bool :=
  c = ' ' || c = '\t' || c = '\n' || c = '\r' || c = '\x0b' || c = '\x0c' ||
    c = '\xa0'

/-- Drop leading whitespace, one half of `String.prototype.trim`. -/
def dropLeading (s : Str) : Str := s.dropWhile isJsWhitespace

/-- Drop trailing whitespace, the other half of `String.prototype.trim`. -/
def dropTrailing (s : Str) : Str := (s.reverse.dropWhile isJsWhitespace).reverse

/-- Model of `String.prototype.trim`. -/
def trimStr (s : Str) : Str := dropTrailing (dropLeading s)

/-- Model of `value.replace(/\s+/g, "")`: remove every whitespace character. -/
def collapse (s : Str) : Str := s.filter (fun c => !isJsWhitespace c)

/-- Model of `content.split(/\r?\n/)`: split into physical lines at `\n` or
`\r\n`; a lone `\r` is ordinary content. -/
def splitLines : Str → List Str
  | [] => [[]]
  | '\r' :: '\n' :: rest =>
      [] :: splitLines rest
  | '\n' :: rest =>
      [] :: splitLines rest
  | c :: rest =>
      match splitLines rest with
      | [] => [[c]]
      | l :: ls => (c :: l) :: ls

/-- A FlatMap: a JS plain object used as a string-to-string map, modelled as
an insertion-ordered association list with unique keys. -/
abbrev FlatMap := List (Str × Str)

/-- Model of the JS assignment `result[key] = value` on a plain object:
overwrite in place when the key exists, append otherwise. -/
def insertJS : FlatMap → Str → Str → FlatMap
  | [], k, v => [(k, v)]
  | (k0, v0) :: rest, k, v =>
      if k0 = k then (k, v) :: rest else (k0, v0) :: insertJS rest k v

/-- Model of the JS own-property read `obj[key]` on a string map. -/
def lookupFM : FlatMap → Str → Option Str
  | [], _ => none
  | (k0, v0) :: rest, k => if k0 = k then some v0 else lookupFM rest k

/-- Loop body of `parsePropertiesFile` (src/compareUtility.js lines 20-47):
trim, skip blank and `#`-led lines, strip an inline comment when a `#` is
present, split at the first `=`, trim key and value, record non-empty keys. -/
def processLine (result : FlatMap) (line : Str) : FlatMap :=
  let trimmedLine := trimStr line
  if trimmedLine = [] || trimmedLine.head? = some '#' then result
  else
    let t2 :=
      if '#' ∈ trimmedLine then
        trimStr (trimmedLine.takeWhile (fun c => decide (c ≠ '#')))
      else trimmedLine
    if '=' ∈ t2 then
      let key := trimStr (t2.takeWhile (fun c => decide (c ≠ '=')))
      let value := trimStr ((t2.dropWhile (fun c => decide (c ≠ '='))).tail)
      if key ≠ [] then insertJS result key value else result
    else result

/-- Model of `parsePropertiesFile` applied to successfully read content:
fold the per-line step over the physical lines. -/
def parseProps (content : Str) : FlatMap :=
  (splitLines content).foldl processLine []

/-- A decoded YAML document as produced by `yaml.load`, following the
explicit sum-type modelling: string scalars, non-string scalars (numbers,
booleans, null) carried as their JS `String(...)` rendering, sequences and
insertion-ordered mappings. -/
inductive Yaml where
  | str (s : Str)
  | prim (s : Str)
  | seq (xs : List Yaml)
  | obj (entries : List (Str × Yaml))
deriving Repr

/-- Comma join used by JS `Array.prototype.toString`. -/
def joinComma : List Str → Str
  | [] => []
  | [s] => s
  | s :: rest => s ++ ',' :: joinComma rest

mutual

/-- Model of JS `String(value)` on a decoded YAML value (a string renders as
itself, a sequence joins its elements with commas, a mapping renders as
`[object Object]`; a null element inside an array would render empty under
`Array.prototype.join`, a nuance of values the program never produces that
the model elides by carrying non-string scalars in rendered form). -/
def stringifyYaml : Yaml → Str
  | .str s => s
  | .prim s => s
  | .seq xs => joinComma (stringifyList xs)
  | .obj _ => chars "[object Object]"

/-- Elementwise rendering of a sequence's items. -/
def stringifyList : List Yaml → List Str
  | [] => []
  | y :: ys => stringifyYaml y :: stringifyList ys

end

/-- Model of the template `parentKey ? parentKey + "." + key : key` in
`flattenObject` (the empty parent string is JS-falsy). -/
def joinKey (parentKey k : Str) : Str :=
  if parentKey = [] then k else parentKey ++ '.' :: k

mutual

/-- Loop of `flattenObject` (src/compareUtility.js lines 67-75) over the
entries of one mapping: each entry is processed in order into the
accumulator `res`. -/
def flattenEntries : Str → List (Str × Yaml) → FlatMap → FlatMap
  | _, [], res => res
  | parentKey, (k, v) :: rest, res =>
      flattenEntries parentKey rest (flattenNode (joinKey parentKey k) v res)

/-- Body of the loop of `flattenObject` for one entry value: a non-null,
non-array object recurses; every other value is stringified and assigned. -/
def flattenNode : Str → Yaml → FlatMap → FlatMap
  | newKey, .obj entries, res => flattenEntries newKey entries res
  | newKey, .str s, res => insertJS res newKey s
  | newKey, .prim s, res => insertJS res newKey s
  | newKey, .seq xs, res => insertJS res newKey (stringifyYaml (.seq xs))

end

/-- Model of `Object.entries(data || {})` at the root of `flattenObject`:
a missing (null/undefined) document and a non-string primitive enumerate no
entries, a mapping enumerates its entries, an array enumerates index-keyed
entries, a string enumerates its characters index-keyed. -/
def entriesOf : Option Yaml → List (Str × Yaml)
  | none => []
  | some (.obj es) => es
  | some (.seq xs) =>
      (xs.enum).map (fun p => ((toString p.1).data, p.2))
  | some (.str s) =>
      (s.enum).map (fun p => ((toString p.1).data, Yaml.str [p.2]))
  | some (.prim _) => []

/-- Model of `flattenObject(data)` as called from `parseYamlFile`. -/
def flattenObject (data : Option Yaml) : FlatMap :=
  flattenEntries [] (entriesOf data) []

/-- Model of node's `path.extname`: the part of the basename from its last
`.` to the end, empty when the basename has no `.` or its only `.` is the
leading character (node additionally treats the basenames `.` and `..` as
extensionless, an edge the comparisons below never reach). -/
def extname (p : Str) : Str :=
  let b := (p.reverse.takeWhile (fun c => decide (c ≠ '/'))).reverse
  if '.' ∈ b then
    let afterDot := (b.reverse.takeWhile (fun c => decide (c ≠ '.'))).reverse
    if b.length = afterDot.length + 1 then [] else '.' :: afterDot
  else []

/-- Model of `path.extname(filePath).toLowerCase()` (ASCII lowering). -/
def extnameLower (p : Str) : Str := (extname p).map Char.toLower

/-- A file system read, the external collaborator behind `fs.readFileSync`:
`none` models a read that throws (caught by the parsers). -/
abbrev ReadFn := Str → Option Str

/-- The js-yaml decoder, an external collaborator: `none` models either a
parse error (thrown, then caught) or a null/undefined document (turned into
no entries by `data || \x7b\x7d`); both yield an empty FlatMap. -/
abbrev YamlFn := Str → Option Yaml

/-- Model of `parsePropertiesFile`: an unreadable file yields an empty map
(the catch branch), otherwise the content is parsed line by line. -/
def parsePropertiesFile (readF : ReadFn) (p : Str) : FlatMap :=
  match readF p with
  | none => []
  | some content => parseProps content

/-- Model of `parseYamlFile`: read, decode with js-yaml, flatten; a read or
decode failure yields an empty map. -/
def parseYamlFile (yload : YamlFn) (readF : ReadFn) (p : Str) : FlatMap :=
  match readF p with
  | none => []
  | some content => flattenObject (yload content)

/-- Model of `parseFile` (src/compareUtility.js lines 106-122) together with
the fact that the default branch logs the unsupported-extension warning: the
Boolean component is true exactly when that warning is printed. -/
def parseFileW (yload : YamlFn) (readF : ReadFn) (p : Str) : FlatMap × Bool :=
  let ext := extnameLower p
  if ext = chars ".properties" then (parsePropertiesFile readF p, false)
  else if ext = chars ".yml" then (parseYamlFile yload readF p, false)
  else if ext = chars ".yaml" then (parseYamlFile yload readF p, false)
  else ([], true)

/-- The FlatMap returned by `parseFile`. -/
def parseFile (yload : YamlFn) (readF : ReadFn) (p : Str) : FlatMap :=
  (parseFileW yload readF p).1

/-- One element of `mismatchDetails`: a comparison row. -/
structure RowDetail where
  key : Str
  values : List Str
  matched : Bool
deriving Repr, DecidableEq

/-- The comparison result produced by `compareFileData`. -/
structure ComparisonResult where
  mismatchCount : Nat
  mismatchDetails : List RowDetail
deriving Repr, DecidableEq

/-- The sentinel for a slot without a usable value. -/
def nA : Str := chars "N/A"

/-- Model of `obj[key]?.replace(/\s+/g, "") || "N/A"`: an absent key gives
the sentinel, a present value is whitespace-collapsed, and a collapsed value
that is the empty string (JS-falsy) also gives the sentinel. -/
def cellValue (o : Option Str) : Str :=
  match o with
  | none => nA
  | some v => if collapse v = [] then nA else collapse v

/-- Model of `values.every((value) => value === values[0])` (true on an
empty array, where `values[0]` is undefined). -/
def matchedOf (values : List Str) : Bool :=
  match values with
  | [] => true
  | v0 :: _ => values.all (fun v => decide (v = v0))

/-- The row built for one key of the union (src/compareUtility.js
lines 148-153). -/
def rowFor (objs : List FlatMap) (k : Str) : RowDetail :=
  let values := objs.map (fun o => cellValue (lookupFM o k))
  ⟨k, values, matchedOf values⟩

/-- Numeric value of a digit string. -/
def digitsVal (s : Str) : Nat :=
  s.foldl (fun acc c => acc * 10 + (c.toNat - 48)) 0

/-- Whether a string key is a JS array index: the canonical decimal form
(no leading zero except `0` itself) of an integer up to 2^32 - 2. Such
keys enumerate before all others, in ascending numeric order. -/
def isArrayIndexKey (s : Str) : Bool :=
  match s with
  | [] => false
  | c :: rest =>
      if c = '0' then decide (rest = ([] : Str))
      else c.isDigit && rest.all (fun d => d.isDigit) &&
        decide (digitsVal (c :: rest) ≤ 4294967294)

/-- Insert one array-index key into a numerically ascending list. -/
def insertSorted (k : Str) : List Str → List Str
  | [] => [k]
  | x :: xs =>
      if digitsVal k ≤ digitsVal x then k :: x :: xs
      else x :: insertSorted k xs

/-- Sort array-index keys into ascending numeric order. -/
def sortIndexKeys : List Str → List Str
  | [] => []
  | k :: ks => insertSorted k (sortIndexKeys ks)

/-- Model of `Object.keys(obj)`: JS enumerates the integer-like (array
index) keys first, in ascending numeric order, then the remaining string
keys in insertion order. -/
def jsKeys (o : FlatMap) : List Str :=
  let ks := o.map Prod.fst
  sortIndexKeys (ks.filter isArrayIndexKey) ++
    ks.filter (fun k => !isArrayIndexKey k)

/-- Model of `Set.prototype.add`: a JS Set keeps insertion order and ignores
re-insertions. -/
def addKey (acc : List Str) (k : Str) : List Str :=
  if k ∈ acc then acc else acc ++ [k]

/-- Model of `new Set(parsedObjects.flatMap((obj) => Object.keys(obj)))`
iterated in insertion order. -/
def keyUnion (objs : List FlatMap) : List Str :=
  (objs.flatMap jsKeys).foldl addKey []

/-- Model of the pure part of `compareFileData` (src/compareUtility.js
lines 142-158) on already-parsed FlatMaps. -/
def compareMaps (objs : List FlatMap) : ComparisonResult :=
  let rows := (keyUnion objs).map (rowFor objs)
  ⟨(rows.filter (fun r => r.matched = false)).length, rows⟩

/-- Model of `compareFileData`: parse every path, then compare. -/
def compareFileData (yload : YamlFn) (readF : ReadFn) (paths : List Str) :
    ComparisonResult :=
  compareMaps (paths.map (parseFile yload readF))

/-- The key/values pairs printed by the console renderer's Highlighted
Mismatched Rows section (src/compareUtility.js lines 370-382): exactly the
unmatched rows, each with its stored per-file values (the chalk colouring
and the per-value `File i:` labels are presentation around these values). -/
def highlightedRows (r : ComparisonResult) : List (Str × List Str) :=
  (r.mismatchDetails.filter (fun d => d.matched = false)).map
    (fun d => (d.key, d.values))

/-- Model of `Array.prototype.join(", ")` on the mismatched-key list. -/
def joinKeysComma : List Str → Str
  | [] => []
  | [k] => k
  | k :: rest => k ++ chars ", " ++ joinKeysComma rest

/-- The lines printed by the console renderer's Summary section
(src/compareUtility.js lines 385-396). -/
def consoleSummary (r : ComparisonResult) : List Str :=
  if r.mismatchCount = 0 then
    [chars "All properties match across all files!"]
  else
    [(toString r.mismatchCount).data ++ chars " key(s) have mismatched values.",
     chars "Mismatched keys: " ++
       joinKeysComma ((r.mismatchDetails.filter
         (fun d => d.matched = false)).map (fun d => d.key))]

/-- The per-row value cells of the Markdown renderer's table
(src/compareUtility.js lines 312-315): each stored value verbatim, except
that the sentinel is styled as `*N/A*`. -/
def markdownCells (r : ComparisonResult) : List (List Str) :=
  r.mismatchDetails.map
    (fun d => d.values.map (fun v => if v = nA then chars "*N/A*" else v))

/-- Specification-side characterization of first-seen order: keep the first
occurrence of each element, in order of first appearance. -/
def firstOcc : List Str → List Str
  | [] => []
  | k :: rest => k :: firstOcc (rest.filter (fun x => decide (x ≠ k)))
termination_by l => l.length
decreasing_by
  simp only [List.length_cons]
  exact Nat.lt_succ_of_le (List.length_filter_le _ _)

/-- Specification-side restatement of the per-line rule of the properties
parser, following the spec wording of section 4.1: trim; skip an empty or
`#`-led line; discard the first `#` and everything after it, then re-trim;
skip when no `=` remains; key is the trimmed text before the first `=`,
value the trimmed text after it; skip an empty key, otherwise record the
pair with a later duplicate key overwriting an earlier one. -/
def specLineStep (res : FlatMap) (line : Str) : FlatMap :=
  let t := trimStr line
  if t = [] then res
  else if t.head? = some '#' then res
  else
    let body := trimStr (t.takeWhile (fun c => decide (c ≠ '#')))
    if '=' ∉ body then res
    else
      let key := trimStr (body.takeWhile (fun c => decide (c ≠ '=')))
      let value := trimStr ((body.dropWhile (fun c => decide (c ≠ '='))).tail)
      if key = [] then res else insertJS res key value

/-! Helper lemmas. -/

lemma dropWhile_dropWhile (p : Char → Bool) (l : Str) :
    (l.dropWhile p).dropWhile p = l.dropWhile p := by
  induction l with
  | nil => rfl
  | cons a l ih =>
      by_cases h : p a = true
      · simp [List.dropWhile_cons, h, ih]
      · simp [List.dropWhile_cons, h]

lemma length_dropWhile_le_own (p : Char → Bool) (l : Str) :
    (l.dropWhile p).length ≤ l.length := by
  induction l with
  | nil => simp
  | cons a l ih =>
      by_cases h : p a = true
      · simp only [List.dropWhile_cons, h, if_true]
        exact Nat.le_succ_of_le ih
      · simp [List.dropWhile_cons, h]

lemma dropLeading_dropLeading (s : Str) :
    dropLeading (dropLeading s) = dropLeading s := by
  simpa [dropLeading] using dropWhile_dropWhile isJsWhitespace s

lemma dropTrailing_dropTrailing (s : Str) :
    dropTrailing (dropTrailing s) = dropTrailing s := by
  unfold dropTrailing
  rw [List.reverse_reverse, dropWhile_dropWhile]

lemma dropTrailing_prefix (l : Str) : dropTrailing l <+: l := by
  have h : (l.reverse.dropWhile isJsWhitespace) <:+ l.reverse :=
    List.dropWhile_suffix _
  have h2 := h.reverse
  simpa [dropTrailing] using h2

lemma dropLeading_eq_self_of_head (l : Str)
    (h : ∀ a rest, l = a :: rest → isJsWhitespace a = false) :
    dropLeading l = l := by
  cases l with
  | nil => rfl
  | cons a rest => simp [dropLeading, List.dropWhile_cons, h a rest rfl]

lemma head_not_ws_of_dropLeading_eq (l : Str) (h : dropLeading l = l) :
    ∀ a rest, l = a :: rest → isJsWhitespace a = false := by
  intro a rest he
  subst he
  by_contra hw
  simp only [Bool.not_eq_false] at hw
  simp [dropLeading, List.dropWhile_cons, hw] at h
  have hlen := congrArg List.length h
  have hle := length_dropWhile_le_own isJsWhitespace rest
  simp at hlen
  omega

lemma dropLeading_dropTrailing_of (t : Str) (h : dropLeading t = t) :
    dropLeading (dropTrailing t) = dropTrailing t := by
  apply dropLeading_eq_self_of_head
  intro a rest he
  rcases dropTrailing_prefix t with ⟨tail, hp⟩
  rw [he] at hp
  exact head_not_ws_of_dropLeading_eq t h a (rest ++ tail) hp.symm

lemma trimStr_trimStr (s : Str) : trimStr (trimStr s) = trimStr s := by
  unfold trimStr
  rw [dropLeading_dropTrailing_of (dropLeading s) (dropLeading_dropLeading s),
      dropTrailing_dropTrailing]

lemma takeWhile_ne_of_not_mem (c : Char) (l : Str) (h : c ∉ l) :
    l.takeWhile (fun x => decide (x ≠ c)) = l := by
  induction l with
  | nil => rfl
  | cons a l ih =>
      simp only [List.mem_cons, not_or] at h
      have ha : (decide (a ≠ c)) = true := by
        simp only [decide_eq_true_iff]
        exact fun he => h.1 he.symm
      simp only [List.takeWhile_cons, ha, if_true]
      rw [ih h.2]

lemma lookupFM_isSome_iff (o : FlatMap) (k : Str) :
    (lookupFM o k).isSome = true ↔ k ∈ o.map Prod.fst := by
  induction o with
  | nil => simp [lookupFM]
  | cons e rest ih =>
      obtain ⟨k0, v0⟩ := e
      by_cases h : k0 = k
      · subst h; simp [lookupFM]
      · simp [lookupFM, h, ih, Ne.symm h]

lemma lookupFM_insertJS_self (o : FlatMap) (k v : Str) :
    lookupFM (insertJS o k v) k = some v := by
  induction o with
  | nil => simp [insertJS, lookupFM]
  | cons e rest ih =>
      obtain ⟨k0, v0⟩ := e
      by_cases h : k0 = k
      · simp [insertJS, h, lookupFM]
      · simp [insertJS, h, lookupFM, ih]

lemma processLine_eq_specLineStep (res : FlatMap) (line : Str) :
    processLine res line = specLineStep res line := by
  unfold processLine specLineStep
  by_cases h1 : trimStr line = []
  · simp [h1]
  · by_cases h2 : (trimStr line).head? = some '#'
    · simp [h1, h2]
    · simp only [h1, h2, decide_False, Bool.false_or, if_neg, decide_eq_true_eq]
      have hbody :
          (if '#' ∈ trimStr line then
            trimStr ((trimStr line).takeWhile (fun c => decide (c ≠ '#')))
          else trimStr line) =
          trimStr ((trimStr line).takeWhile (fun c => decide (c ≠ '#'))) := by
        by_cases h3 : '#' ∈ trimStr line
        · simp [h3]
        · rw [if_neg h3, takeWhile_ne_of_not_mem _ _ h3, trimStr_trimStr]
      rw [hbody]
      set body := trimStr ((trimStr line).takeWhile (fun c => decide (c ≠ '#')))
      by_cases h4 : '=' ∈ body
      · simp only [h4, if_true, not_true, if_neg, if_false]
        by_cases h5 : trimStr (body.takeWhile (fun c => decide (c ≠ '='))) = []
        · simp [h5]
        · simp [h5]
      · simp [h4]

lemma foldl_addKey (l : List Str) :
    ∀ acc, l.foldl addKey acc =
      acc ++ firstOcc (l.filter (fun k => decide (k ∉ acc))) := by
  induction l with
  | nil => intro acc; simp [firstOcc]
  | cons k rest ih =>
      intro acc
      by_cases hk : k ∈ acc
      · have ha : addKey acc k = acc := by simp [addKey, hk]
        simp only [List.foldl_cons, ha, List.filter_cons, hk, decide_True,
          not_true, decide_False]
        rw [ih acc]
        simp [hk]
      · have ha : addKey acc k = acc ++ [k] := by simp [addKey, hk]
        simp only [List.foldl_cons, ha]
        rw [ih (acc ++ [k])]
        have hfk : (rest.filter (fun x => decide (x ∉ acc ++ [k]))) =
            (rest.filter (fun x => decide (x ∉ acc))).filter
              (fun x => decide (x ≠ k)) := by
          rw [List.filter_filter]
          apply List.filter_congr
          intro x _
          by_cases hx1 : x = k
          · subst hx1; simp
          · by_cases hx2 : x ∈ acc <;> simp [hx1, hx2]
        have hcons : (k :: rest).filter (fun x => decide (x ∉ acc)) =
            k :: rest.filter (fun x => decide (x ∉ acc)) := by
          simp [List.filter_cons, hk]
        rw [hcons, hfk]
        show acc ++ [k] ++ _ = acc ++ firstOcc (k :: _)
        rw [firstOcc]
        simp [List.append_assoc]

lemma mem_insertSorted (k x : Str) (l : List Str) :
    x ∈ insertSorted k l ↔ x = k ∨ x ∈ l := by
  induction l with
  | nil => simp [insertSorted]
  | cons a l ih =>
      by_cases h : digitsVal k ≤ digitsVal a
      · simp [insertSorted, h]
      · simp only [insertSorted, if_neg h, List.mem_cons, ih]
        tauto

lemma mem_sortIndexKeys (x : Str) (l : List Str) :
    x ∈ sortIndexKeys l ↔ x ∈ l := by
  induction l with
  | nil => simp [sortIndexKeys]
  | cons k ks ih =>
      simp [sortIndexKeys, mem_insertSorted, ih]

lemma mem_jsKeys (o : FlatMap) (k : Str) :
    k ∈ jsKeys o ↔ k ∈ o.map Prod.fst := by
  unfold jsKeys
  simp only [List.mem_append, mem_sortIndexKeys, List.mem_filter]
  by_cases h : isArrayIndexKey k = true
  · simp [h]
  · simp [h]

lemma keyUnion_eq_firstOcc (objs : List FlatMap) :
    keyUnion objs = firstOcc (objs.flatMap jsKeys) := by
  unfold keyUnion
  rw [foldl_addKey]
  simp only [List.nil_append]
  congr 1
  apply List.filter_eq_self.mpr
  intro x _
  simp

lemma mem_firstOcc (l : List Str) (x : Str) : x ∈ firstOcc l ↔ x ∈ l := by
  induction l using firstOcc.induct with
  | case1 => simp [firstOcc]
  | case2 k rest ih =>
      rw [firstOcc]
      by_cases hx : x = k
      · subst hx; simp
      · simp only [List.mem_cons, hx, false_or, ih, List.mem_filter,
          decide_eq_true_eq]
        constructor
        · intro h; exact h.1
        · intro h; exact ⟨h, hx⟩

lemma nodup_firstOcc (l : List Str) : (firstOcc l).Nodup := by
  induction l using firstOcc.induct with
  | case1 => simp [firstOcc]
  | case2 k rest ih =>
      rw [firstOcc]
      refine List.nodup_cons.mpr ⟨?_, ih⟩
      intro hk
      rw [mem_firstOcc] at hk
      simp at hk

lemma countP_eq_one_of_nodup_mem (l : List Str) (k : Str)
    (hnd : l.Nodup) (hm : k ∈ l) :
    l.countP (fun x => decide (x = k)) = 1 := by
  induction l with
  | nil => simp at hm
  | cons a rest ih =>
      rw [List.countP_cons]
      rcases List.nodup_cons.mp hnd with ⟨hna, hnd2⟩
      by_cases h : a = k
      · subst h
        have : rest.countP (fun x => decide (x = a)) = 0 := by
          rw [List.countP_eq_zero]
          intro x hx
          simp only [decide_eq_true_eq]
          intro he; exact hna (he ▸ hx)
        simp [this]
      · have hm2 : k ∈ rest := by
          rcases List.mem_cons.mp hm with h2 | h2
          · exact absurd h2.symm h
          · exact h2
        simp [h, ih hnd2 hm2]

lemma countP_eq_zero_of_not_mem (l : List Str) (k : Str) (hm : k ∉ l) :
    l.countP (fun x => decide (x = k)) = 0 := by
  rw [List.countP_eq_zero]
  intro x hx
  simp only [decide_eq_true_eq]
  intro he; exact hm (he ▸ hx)

lemma length_firstOcc (l : List Str) :
    (firstOcc l).length = l.toFinset.card := by
  have hsub : (firstOcc l).toFinset = l.toFinset := by
    apply Finset.ext
    intro x
    simp [List.mem_toFinset, mem_firstOcc]
  calc (firstOcc l).length = (firstOcc l).toFinset.card :=
        (List.toFinset_card_of_nodup (nodup_firstOcc l)).symm
    _ = l.toFinset.card := by rw [hsub]

lemma compareMaps_details (objs : List FlatMap) :
    (compareMaps objs).mismatchDetails = (keyUnion objs).map (rowFor objs) :=
  rfl

lemma rowFor_key (objs : List FlatMap) (k : Str) : (rowFor objs k).key = k :=
  rfl

lemma rowFor_values (objs : List FlatMap) (k : Str) :
    (rowFor objs k).values = objs.map (fun o => cellValue (lookupFM o k)) :=
  rfl

lemma rowFor_matched (objs : List FlatMap) (k : Str) :
    (rowFor objs k).matched =
      matchedOf (objs.map (fun o => cellValue (lookupFM o k))) :=
  rfl

lemma mem_details_iff (objs : List FlatMap) (r : RowDetail) :
    r ∈ (compareMaps objs).mismatchDetails ↔
      ∃ k ∈ keyUnion objs, rowFor objs k = r := by
  rw [compareMaps_details, List.mem_map]

lemma matchedOf_eq_false_of_ne (values : List Str) (i j : Nat) (a b : Str)
    (hi : values.get? i = some a) (hj : values.get? j = some b)
    (hab : a ≠ b) : matchedOf values = false := by
  cases values with
  | nil => simp at hi
  | cons v0 vs =>
      by_contra hfalse
      rw [Bool.not_eq_false] at hfalse
      unfold matchedOf at hfalse
      rw [List.all_eq_true] at hfalse
      have ha : a = v0 := by
        have := hfalse a (List.get?_mem hi)
        simpa using this
      have hb : b = v0 := by
        have := hfalse b (List.get?_mem hj)
        simpa using this
      exact hab (ha.trans hb.symm)

lemma matchedOf_eq_true_of_all_eq (values : List Str) (c : Str)
    (h : ∀ x ∈ values, x = c) : matchedOf values = true := by
  cases values with
  | nil => rfl
  | cons v0 vs =>
      unfold matchedOf
      rw [List.all_eq_true]
      intro x hx
      simp only [decide_eq_true_eq]
      rw [h x hx, h v0 (List.mem_cons_self v0 vs)]

lemma mismatchCount_eq_zero_iff (objs : List FlatMap) :
    (compareMaps objs).mismatchCount = 0 ↔
      ∀ r ∈ (compareMaps objs).mismatchDetails, r.matched = true := by
  show (((keyUnion objs).map (rowFor objs)).filter
      (fun r => r.matched = false)).length = 0 ↔ _
  rw [List.length_eq_zero, List.filter_eq_nil_iff]
  constructor
  · intro h r hr
    have := h r hr
    simpa using this
  · intro h r hr
    simp [h r hr]

lemma flatMap_keys_nil (maps : List FlatMap) (h : ∀ m ∈ maps, m = []) :
    maps.flatMap jsKeys = [] := by
  induction maps with
  | nil => rfl
  | cons m ms ih =>
      rw [List.flatMap_cons, h m (List.mem_cons_self m ms)]
      rw [ih (fun m2 hm2 => h m2 (List.mem_cons_of_mem m hm2))]
      rfl

/-! Claim theorems. -/

/-- C4 counterexample: in a file whose entries are `b` then `404`, the key
`b` appears first across the files taken left to right, yet JS hoists the
integer-like key and the row for `404` comes first, so the rows are not in
first-appearance order. -/
theorem row_order_counterexample :
    (compareMaps [[(chars "b", chars "1"), (chars "404", chars "2")]]
        ).mismatchDetails.map RowDetail.key = [chars "404", chars "b"]
    ∧ ([[(chars "b", chars "1"), (chars "404", chars "2")]] :
        List FlatMap).flatMap (fun o => o.map Prod.fst) =
        [chars "b", chars "404"]
    ∧ (chars "404" : Str) ≠ chars "b" := by
  decide

/-- C4 amended: for every list of input FlatMaps the comparison rows carry
exactly one entry per key of the union of key sets, without duplicates, and
the number of rows is the size of the key union; the rows are ordered by
first appearance of each key across the files taken left to right under the
JS object key enumeration, which lists each file's integer-like (array
index) keys first in ascending numeric order and only the remaining keys in
insertion order. -/
theorem compare_rows_union_complete (objs : List FlatMap) :
    ((compareMaps objs).mismatchDetails.map RowDetail.key =
      firstOcc (objs.flatMap jsKeys))
    ∧ ((compareMaps objs).mismatchDetails.map RowDetail.key).Nodup
    ∧ (∀ k, k ∈ objs.flatMap jsKeys ↔
        ∃ o ∈ objs, (lookupFM o k).isSome = true)
    ∧ (∀ k, ((compareMaps objs).mismatchDetails.map RowDetail.key).countP
        (fun x => decide (x = k)) =
        if k ∈ objs.flatMap (fun o => o.map Prod.fst) then 1 else 0)
    ∧ (compareMaps objs).mismatchDetails.length =
        (objs.flatMap (fun o => o.map Prod.fst)).toFinset.card := by
  have hkeys : (compareMaps objs).mismatchDetails.map RowDetail.key =
      keyUnion objs := by
    rw [compareMaps_details, List.map_map]
    have hid : RowDetail.key ∘ rowFor objs = id := funext fun k => rfl
    rw [hid, List.map_id]
  have hfo := keyUnion_eq_firstOcc objs
  have hmm : ∀ k, k ∈ objs.flatMap jsKeys ↔
      k ∈ objs.flatMap (fun o => o.map Prod.fst) := by
    intro k
    simp [List.mem_flatMap, mem_jsKeys]
  refine ⟨hkeys.trans hfo, ?_, ?_, ?_, ?_⟩
  · rw [hkeys, hfo]; exact nodup_firstOcc _
  · intro k
    rw [hmm]
    simp [List.mem_flatMap, lookupFM_isSome_iff]
  · intro k
    rw [hkeys, hfo]
    by_cases hm : k ∈ objs.flatMap (fun o => o.map Prod.fst)
    · rw [if_pos hm]
      exact countP_eq_one_of_nodup_mem _ _ (nodup_firstOcc _)
        ((mem_firstOcc _ _).mpr ((hmm k).mpr hm))
    · rw [if_neg hm]
      exact countP_eq_zero_of_not_mem _ _
        (fun hc => hm ((hmm k).mp ((mem_firstOcc _ _).mp hc)))
  · rw [compareMaps_details, List.length_map, keyUnion_eq_firstOcc,
      length_firstOcc]
    congr 1
    apply Finset.ext
    intro x
    simp only [List.mem_toFinset]
    exact hmm x

/-- C5: two FlatMaps with identical key sets whose values agree after
removing all whitespace compare with zero mismatches. -/
theorem compare_whitespace_equal_maps_match (A B : FlatMap)
    (hkeys : ∀ k, (lookupFM A k).isSome = true ↔ (lookupFM B k).isSome = true)
    (hvals : ∀ k v w, lookupFM A k = some v → lookupFM B k = some w →
      collapse v = collapse w) :
    (compareMaps [A, B]).mismatchCount = 0 := by
  rw [mismatchCount_eq_zero_iff]
  intro r hr
  rcases (mem_details_iff _ _).mp hr with ⟨k, hk, hrow⟩
  rw [← hrow, rowFor_matched]
  have hcell : cellValue (lookupFM B k) = cellValue (lookupFM A k) := by
    cases hA : lookupFM A k with
    | none =>
        have hBn : lookupFM B k = none := by
          have h2 := hkeys k
          rw [hA] at h2
          simp only [Option.isSome_none] at h2
          exact Option.not_isSome_iff_eq_none.mp (by
            intro hs
            exact absurd (h2.mpr hs) (by simp))
        rw [hBn]
    | some v =>
        have hBs : (lookupFM B k).isSome = true :=
          (hkeys k).mp (by simp [hA])
        rcases Option.isSome_iff_exists.mp hBs with ⟨w, hw⟩
        rw [hw]
        have hvw := hvals k v w hA hw
        simp [cellValue, hvw]
  apply matchedOf_eq_true_of_all_eq _ (cellValue (lookupFM A k))
  intro x hx
  simp only [List.map_cons, List.map_nil, List.mem_cons,
    List.not_mem_nil, or_false] at hx
  rcases hx with hx | hx
  · exact hx
  · rw [hx, hcell]

/-- C5 witness: two concrete single-key maps with whitespace-equal values
compare with zero mismatches. -/
theorem compare_whitespace_equal_maps_match_witness :
    (compareMaps [[(chars "k", chars " a b")], [(chars "k", chars "ab")]]
      ).mismatchCount = 0 := by
  apply compare_whitespace_equal_maps_match
  · intro k
    by_cases h : chars "k" = k <;> simp [lookupFM, h]
  · intro k v w hv hw
    by_cases h : chars "k" = k
    · simp only [lookupFM, if_pos h] at hv hw
      rw [← Option.some_inj.mp hv, ← Option.some_inj.mp hw]
      decide
    · simp [lookupFM, h] at hv

/-- C6: the properties parser processes each physical line exactly by the
trim / comment-skip / inline-comment-strip / first-equals split / key-value
trim rules of the spec, later duplicate keys overwrite earlier ones, and
the comment-handling example parses as stated. -/
theorem props_parser_line_rules :
    (∀ res line, processLine res line = specLineStep res line)
    ∧ (∀ res k v, lookupFM (insertJS res k v) k = some v)
    ∧ parseProps (chars "# c\n\nkey1=value1\nkey2=value2 # inline") =
        [(chars "key1", chars "value1"), (chars "key2", chars "value2")] :=
  ⟨processLine_eq_specLineStep, lookupFM_insertJS_self, by decide⟩

/-- C10: when every input file parses to an empty FlatMap the comparison
has zero rows and zero mismatches, and the console summary reports that all
properties match. -/
theorem all_empty_parses_report_full_match (yload : YamlFn) (readF : ReadFn)
    (paths : List Str) (h : ∀ p ∈ paths, parseFile yload readF p = []) :
    compareFileData yload readF paths = ⟨0, []⟩
    ∧ consoleSummary (compareFileData yload readF paths) =
        [chars "All properties match across all files!"] := by
  have hmaps : ∀ m ∈ paths.map (parseFile yload readF), m = [] := by
    intro m hm
    rcases List.mem_map.mp hm with ⟨p, hp, he⟩
    rw [← he]
    exact h p hp
  have hflat := flatMap_keys_nil _ hmaps
  have hcmp : compareFileData yload readF paths = ⟨0, []⟩ := by
    show compareMaps _ = _
    unfold compareMaps keyUnion
    rw [hflat]
    rfl
  refine ⟨hcmp, ?_⟩
  rw [hcmp]
  rfl

/-- C10 witness: two unreadable unsupported files still produce the
all-match summary. -/
theorem all_empty_parses_report_full_match_witness :
    compareFileData (fun _ => none) (fun _ => none)
        [chars "a.txt", chars "b.txt"] = ⟨0, []⟩
    ∧ consoleSummary (compareFileData (fun _ => none) (fun _ => none)
        [chars "a.txt", chars "b.txt"]) =
        [chars "All properties match across all files!"] :=
  all_empty_parses_report_full_match _ _ _ (by decide)

/-- C7: YAML flattening joins nested mapping keys with a dot, turns scalar
leaves into stringified entries, treats a sequence value as a single
stringified leaf without expanding indices into separate keys, and the
stated flattening example holds. -/
theorem yaml_flatten_rules :
    flattenObject (some (.obj
        [(chars "key1", .str (chars "value1")),
         (chars "key2", .obj
           [(chars "nestedKey", .str (chars "nestedValue"))])])) =
      [(chars "key1", chars "value1"),
       (chars "key2.nestedKey", chars "nestedValue")]
    ∧ (∀ parentKey k xs rest res,
        flattenEntries parentKey ((k, Yaml.seq xs) :: rest) res =
          flattenEntries parentKey rest
            (insertJS res (joinKey parentKey k) (stringifyYaml (Yaml.seq xs))))
    ∧ (∀ k xs, flattenObject (some (Yaml.obj [(k, Yaml.seq xs)])) =
        [(k, stringifyYaml (Yaml.seq xs))])
    ∧ (∀ parentKey k, parentKey ≠ [] →
        joinKey parentKey k = parentKey ++ '.' :: k) := by
  refine ⟨by decide, ?_, ?_, ?_⟩
  · intro parentKey k xs rest res
    rfl
  · intro k xs
    show flattenEntries [] [(k, Yaml.seq xs)] [] = _
    show flattenEntries [] [] (flattenNode (joinKey [] k) (Yaml.seq xs) []) = _
    simp [flattenEntries, flattenNode, joinKey, insertJS]
  · intro parentKey k h
    simp [joinKey, h]

/-- C7 witness: the dot join at a concrete non-empty parent. -/
theorem yaml_flatten_rules_witness :
    joinKey (chars "parent") (chars "child") = chars "parent.child" := by
  rw [yaml_flatten_rules.2.2.2 (chars "parent") (chars "child") (by decide)]
  decide

/-- C9: an entry whose value is an empty mapping contributes nothing to the
flattened map: the flattening of the remaining entries proceeds on an
unchanged accumulator, so the key path disappears entirely. -/
theorem yaml_empty_mapping_disappears :
    (∀ parentKey k rest res,
        flattenEntries parentKey ((k, Yaml.obj []) :: rest) res =
          flattenEntries parentKey rest res)
    ∧ (∀ k, flattenObject (some (Yaml.obj [(k, Yaml.obj [])])) = [])
    ∧ flattenObject (some (Yaml.obj
        [(chars "a", Yaml.obj []), (chars "b", Yaml.str (chars "x"))])) =
        [(chars "b", chars "x")]
    ∧ lookupFM (flattenObject (some (Yaml.obj
        [(chars "a", Yaml.obj []), (chars "b", Yaml.str (chars "x"))])))
        (chars "a") = none := by
  refine ⟨?_, ?_, by decide, by decide⟩
  · intro parentKey k rest res
    rfl
  · intro k
    rfl

/-- C8: the dispatcher selects the properties parser for `.properties`, the
YAML parser for `.yml` and `.yaml` (extensions lowered, hence matched
case-insensitively), and for any other extension it reports the
unsupported-extension warning and returns an empty FlatMap, so the file
contributes no keys while the multi-file comparison still runs. -/
theorem parseFile_dispatch (yload : YamlFn) (readF : ReadFn) (p : Str) :
    (extnameLower p = chars ".properties" →
      parseFileW yload readF p = (parsePropertiesFile readF p, false))
    ∧ (extnameLower p = chars ".yml" ∨ extnameLower p = chars ".yaml" →
      parseFileW yload readF p = (parseYamlFile yload readF p, false))
    ∧ (extnameLower p ∉ [chars ".properties", chars ".yml", chars ".yaml"] →
      parseFileW yload readF p = ([], true)
      ∧ ∀ ps, compareFileData yload readF (p :: ps) =
          compareMaps ([] :: ps.map (parseFile yload readF))) := by
  refine ⟨?_, ?_, ?_⟩
  · intro h
    simp [parseFileW, h]
  · intro h
    rcases h with h | h
    · simp [parseFileW, h,
        (by decide : ¬ (chars ".yml" = chars ".properties"))]
    · simp [parseFileW, h,
        (by decide : ¬ (chars ".yaml" = chars ".properties")),
        (by decide : ¬ (chars ".yaml" = chars ".yml"))]
  · intro h
    simp only [List.mem_cons, List.mem_singleton, not_or,
      List.not_mem_nil, or_false] at h
    have hw : parseFileW yload readF p = ([], true) := by
      simp [parseFileW, h.1, h.2.1, h.2.2]
    refine ⟨hw, ?_⟩
    intro ps
    show compareMaps _ = _
    rw [List.map_cons]
    show compareMaps ((parseFileW yload readF p).1 :: _) = _
    rw [hw]

/-- C8 witness: concrete dispatches for an upper-cased properties file, a
yml file and an unsupported txt file. -/
theorem parseFile_dispatch_witness :
    parseFileW (fun _ => none) (fun _ => none) (chars "conf.PROPERTIES") =
      (parsePropertiesFile (fun _ => none) (chars "conf.PROPERTIES"), false)
    ∧ parseFileW (fun _ => none) (fun _ => none) (chars "a.yml") =
      (parseYamlFile (fun _ => none) (fun _ => none) (chars "a.yml"), false)
    ∧ parseFileW (fun _ => none) (fun _ => none) (chars "a.txt") =
      ([], true) :=
  ⟨(parseFile_dispatch _ _ _).1 (by decide),
   (parseFile_dispatch _ _ _).2.1 (Or.inl (by decide)),
   ((parseFile_dispatch _ _ _).2.2 (by decide)).1⟩

/-- C1 counterexample: the key `k` is present in the first file with a
whitespace-only value, yet its slot in the produced row is the sentinel
`N/A`, so absent and present-but-empty are not distinguishable. -/
theorem sentinel_slot_counterexample :
    lookupFM [(chars "k", chars " ")] (chars "k") = some (chars " ")
    ∧ (compareMaps [[(chars "k", chars " ")], [(chars "k", chars "x")]]
        ).mismatchDetails =
      [⟨chars "k", [nA, chars "x"], false⟩] := by
  decide

/-- C1 amended: in every ComparisonRow, a file's slot holds the sentinel
`N/A` exactly when the key is missing from that file's FlatMap or its value
collapses (after whitespace removal) to the empty string or to the literal
`N/A`. -/
theorem sentinel_slot_characterization (objs : List FlatMap) (r : RowDetail)
    (hr : r ∈ (compareMaps objs).mismatchDetails) (i : Nat) (oi : FlatMap)
    (hoi : objs.get? i = some oi) :
    r.values.get? i = some nA ↔
      lookupFM oi r.key = none ∨
        ∃ v, lookupFM oi r.key = some v ∧
          (collapse v = [] ∨ collapse v = nA) := by
  rcases (mem_details_iff _ _).mp hr with ⟨k, hk, hrow⟩
  rw [← hrow, rowFor_values, rowFor_key]
  have hv : ((objs.map (fun o => cellValue (lookupFM o k))).get? i) =
      some (cellValue (lookupFM oi k)) := by
    rw [List.get?_map, hoi]
    rfl
  rw [hv, Option.some_inj]
  cases hL : lookupFM oi k with
  | none => simp [cellValue, hL]
  | some v =>
      by_cases hc : collapse v = []
      · have hcell : cellValue (some v) = nA := by simp [cellValue, hc]
        rw [hcell]
        constructor
        · intro _
          exact Or.inr ⟨v, rfl, Or.inl hc⟩
        · intro _
          rfl
      · have hcell : cellValue (some v) = collapse v := by
          simp [cellValue, hc]
        rw [hcell]
        constructor
        · intro he
          exact Or.inr ⟨v, rfl, Or.inr he⟩
        · intro he
          rcases he with he | ⟨w, hw, hcw⟩
          · exact absurd he (by simp)
          · have hvw : v = w := Option.some_inj.mp hw
            rcases hcw with hcw | hcw
            · exact absurd (hvw ▸ hcw) hc
            · rw [hvw]
              exact hcw

/-- C1 amended witness: in the comparison of a one-key file with an empty
second file, the second file's slot is the sentinel because the key is
absent there. -/
theorem sentinel_slot_characterization_witness :
    (⟨chars "k", [chars "a", nA], false⟩ : RowDetail).values.get? 1 =
        some nA ↔
      lookupFM [] (⟨chars "k", [chars "a", nA], false⟩ : RowDetail).key =
          none
        ∨ ∃ v, lookupFM []
            (⟨chars "k", [chars "a", nA], false⟩ : RowDetail).key = some v
            ∧ (collapse v = [] ∨ collapse v = nA) :=
  sentinel_slot_characterization [[(chars "k", chars "a")], []]
    ⟨chars "k", [chars "a", nA], false⟩ (by decide) 1 [] (by decide)

/-- C2 counterexample: the raw trimmed parsed value `a b` is stored and
displayed whitespace-collapsed as `ab`, both in the row and in the
Highlighted Mismatched Rows section. -/
theorem displayed_value_counterexample :
    (compareMaps [[(chars "k", chars "a b")], [(chars "k", chars "x")]]
        ).mismatchDetails =
      [⟨chars "k", [chars "ab", chars "x"], false⟩]
    ∧ highlightedRows
        (compareMaps [[(chars "k", chars "a b")], [(chars "k", chars "x")]]) =
      [(chars "k", [chars "ab", chars "x"])]
    ∧ trimStr (chars "a b") = chars "a b"
    ∧ chars "ab" ≠ chars "a b" := by
  decide

/-- C2 amended: the value stored in every ComparisonRow is the
whitespace-collapsed comparison value (sentinel if absent or collapsing to
empty), and the renderers reprint exactly those stored values: the console
Highlighted Mismatched Rows section lists the unmatched rows with their
stored values, and the Markdown cells are the stored values with only the
sentinel restyled. -/
theorem stored_values_are_collapsed (objs : List FlatMap) :
    (∀ r ∈ (compareMaps objs).mismatchDetails,
      r.values = objs.map (fun o => cellValue (lookupFM o r.key)))
    ∧ highlightedRows (compareMaps objs) =
        ((compareMaps objs).mismatchDetails.filter
          (fun d => d.matched = false)).map (fun d => (d.key, d.values))
    ∧ markdownCells (compareMaps objs) =
        (compareMaps objs).mismatchDetails.map
          (fun d => d.values.map
            (fun v => if v = nA then chars "*N/A*" else v)) := by
  refine ⟨?_, rfl, rfl⟩
  intro r hr
  rcases (mem_details_iff _ _).mp hr with ⟨k, hk, hrow⟩
  rw [← hrow, rowFor_values, rowFor_key]

/-- C2 amended witness: the stored values of the single row of a concrete
comparison are the collapsed lookups. -/
theorem stored_values_are_collapsed_witness :
    (⟨chars "k", [chars "ab"], true⟩ : RowDetail).values =
      ([[(chars "k", chars "a b")]] : List FlatMap).map
        (fun o => cellValue
          (lookupFM o (⟨chars "k", [chars "ab"], true⟩ : RowDetail).key)) :=
  (stored_values_are_collapsed [[(chars "k", chars "a b")]]).1
    ⟨chars "k", [chars "ab"], true⟩ (by decide)

/-- C3 counterexample: with two files and the key `k` present only in the
first one, with an empty value, the produced row is marked matched, because
the present-but-empty value is also rendered as the sentinel. -/
theorem lone_key_counterexample :
    lookupFM [(chars "k", ([] : Str))] (chars "k") = some []
    ∧ (compareMaps [[(chars "k", [])], []]).mismatchDetails =
        [⟨chars "k", [nA, nA], true⟩] := by
  decide

/-- C3 amended: with more than one input FlatMap and a key present in
exactly one of them, the result has exactly one row for that key, that row
has the sentinel in every other file's slot, and it is unmatched provided
the one present value collapses neither to the empty string nor to the
literal `N/A` (otherwise every slot is the sentinel, or equal to it, and
the row counts as matched). -/
theorem lone_key_row (objs : List FlatMap) (i : Nat) (oi : FlatMap)
    (k v : Str) (hN : 1 < objs.length) (hoi : objs.get? i = some oi)
    (hv : lookupFM oi k = some v) (hc1 : collapse v ≠ [])
    (hc2 : collapse v ≠ nA)
    (honly : ∀ j oj, objs.get? j = some oj → j ≠ i → lookupFM oj k = none) :
    ((compareMaps objs).mismatchDetails.countP
        (fun r => decide (r.key = k)) = 1)
    ∧ ∀ r ∈ (compareMaps objs).mismatchDetails, r.key = k →
        r.matched = false
        ∧ ∀ j oj, objs.get? j = some oj → j ≠ i →
            r.values.get? j = some nA := by
  have hmemk : k ∈ objs.flatMap jsKeys := by
    rw [List.mem_flatMap]
    exact ⟨oi, List.get?_mem hoi,
      (mem_jsKeys oi k).mpr
        ((lookupFM_isSome_iff oi k).mp (by simp [hv]))⟩
  have hmemu : k ∈ keyUnion objs := by
    rw [keyUnion_eq_firstOcc, mem_firstOcc]
    exact hmemk
  constructor
  · rw [compareMaps_details, List.countP_map]
    have hp : ((fun r => decide (r.key = k)) ∘ rowFor objs) =
        fun x => decide (x = k) := by
      funext x
      rfl
    rw [hp]
    exact countP_eq_one_of_nodup_mem _ _
      (keyUnion_eq_firstOcc objs ▸ nodup_firstOcc _) hmemu
  · intro r hr hkey
    rcases (mem_details_iff _ _).mp hr with ⟨k2, hk2, hrow⟩
    have hk2k : k2 = k := by
      rw [← hrow] at hkey
      exact hkey
    subst hk2k
    have hslot : ∀ j oj, objs.get? j = some oj → j ≠ i →
        r.values.get? j = some nA := by
      intro j oj hoj hji
      rw [← hrow, rowFor_values, List.get?_map, hoj]
      have hnone := honly j oj hoj hji
      simp [cellValue, hnone]
    refine ⟨?_, hslot⟩
    have hcelli : cellValue (lookupFM oi k2) = collapse v := by
      simp [cellValue, hv, hc1]
    have hvi : r.values.get? i = some (collapse v) := by
      rw [← hrow, rowFor_values, List.get?_map, hoi]
      simp [hcelli]
    have hilt : i < objs.length := by
      by_contra hge
      rw [List.get?_eq_none.mpr (Nat.le_of_not_lt hge)] at hoi
      exact Option.noConfusion hoi
    set j0 : Nat := if i = 0 then 1 else 0 with hj0
    have hj0ne : j0 ≠ i := by
      by_cases h0 : i = 0
      · rw [hj0, if_pos h0, h0]
        decide
      · rw [hj0, if_neg h0]
        exact fun he => h0 he.symm
    have hj0lt : j0 < objs.length := by
      by_cases h0 : i = 0
      · rw [hj0, if_pos h0]
        exact hN
      · rw [hj0, if_neg h0]
        omega
    obtain ⟨oj, hoj⟩ : ∃ oj, objs.get? j0 = some oj := by
      rw [List.get?_eq_get hj0lt]
      exact ⟨_, rfl⟩
    have hvj : r.values.get? j0 = some nA := hslot j0 oj hoj hj0ne
    rw [← hrow, rowFor_matched]
    have hvi2 : ((objs.map (fun o => cellValue (lookupFM o k2))).get? i) =
        some (collapse v) := by
      rw [← rowFor_values, hrow]
      exact hvi
    have hvj2 : ((objs.map (fun o => cellValue (lookupFM o k2))).get? j0) =
        some nA := by
      rw [← rowFor_values, hrow]
      exact hvj
    exact matchedOf_eq_false_of_ne _ i j0 _ _ hvi2 hvj2 hc2

/-- C3 amended witness: two concrete files, the key present only in the
first with the value `a`: exactly one row, a sentinel in the second file's
slot and matched false. -/
theorem lone_key_row_witness :
    ((compareMaps [[(chars "k", chars "a")], []]).mismatchDetails.countP
        (fun r => decide (r.key = chars "k")) = 1)
    ∧ ∀ r ∈ (compareMaps [[(chars "k", chars "a")], []]).mismatchDetails,
        r.key = chars "k" →
        r.matched = false
        ∧ ∀ j oj, ([[(chars "k", chars "a")], []] :
              List FlatMap).get? j = some oj → j ≠ 0 →
            r.values.get? j = some nA := by
  apply lone_key_row ([[(chars "k", chars "a")], []] : List FlatMap) 0
      [(chars "k", chars "a")] (chars "k") (chars "a")
  · decide
  · decide
  · decide
  · decide
  · decide
  · intro j oj hoj hji
    match j with
    | 0 => exact absurd rfl hji
    | 1 =>
        have hoje : oj = [] := by
          simp [List.get?] at hoj
          exact hoj
        rw [hoje]
        rfl
    | n + 2 => simp [List.get?] at hoj
